import Mathlib

/-
  Verification development for the CSUClassroomQuery repository.

  The definitions below are a shallow embedding of the Python sources:
    - src/classroom_schedule_processor.py  (current version)
    - src/old_version/main.py              (legacy version)
  Python strings are modelled as `String` / `List Char` (code-point lists,
  matching Python's per-character semantics), Python `int` values as `ℤ`,
  Python sets as `Finset`, dictionaries with set values as total functions
  with `∅` default (Python code reads them via `.get(key, set())`), and a
  raised exception / returned `None` as `Option.none`.
  All inputs in this repository are ASCII digits, punctuation and a few
  fixed CJK marker characters; accordingly the models of Python's
  `str.isdigit`, `int(...)` and `str.strip` cover ASCII digits, an optional
  sign and ASCII whitespace (Python additionally accepts Unicode digit
  characters and underscore digit separators, which never occur here).
-/

namespace CSQ

/-- Model of Python truthiness for an optional string argument:
`None` and the empty string are falsy. -/
def truthy : Option String → Bool
  | none => false
  | some s => !s.data.isEmpty

/-- Whitespace characters stripped by Python's `str.strip()`. -/
def pyIsSpace (c : Char) : Bool :=
  c = ' ' ∨ c = '\t' ∨ c = '\n' ∨ c = '\r' ∨ c = '\x0b' ∨ c = '\x0c'

/-- Model of Python `str.strip()`: drop leading and trailing whitespace. -/
def pyStrip (cs : List Char) : List Char :=
  ((cs.dropWhile pyIsSpace).reverse.dropWhile pyIsSpace).reverse

/-- Model of Python `str.split(sep)` for a one-character separator:
"a,b" ↦ ["a","b"], "" ↦ [""], "," ↦ ["",""]. -/
def pySplit (sep : Char) : List Char → List (List Char)
  | [] => [[]]
  | c :: rest =>
    match pySplit sep rest with
    | [] => [[]]
    | h :: t => if c = sep then [] :: h :: t else (c :: h) :: t

/-- Model of Python `str.isdigit()` on ASCII input:
nonempty and all characters are decimal digits. -/
def pyIsDigit (cs : List Char) : Bool :=
  !cs.isEmpty && cs.all (·.isDigit)

/-- Numeric value of a list of decimal digit characters. -/
def digitsVal (cs : List Char) : ℤ :=
  cs.foldl (fun n c => 10 * n + ((c.toNat - '0'.toNat : ℕ) : ℤ)) 0

/-- Model of Python `int(s)` on a string: strip whitespace, optional sign,
then decimal digits; `none` models the raised `ValueError`. -/
def pyInt (cs : List Char) : Option ℤ :=
  match pyStrip cs with
  | [] => none
  | c :: rest =>
    if c = '-' then (if pyIsDigit rest then some (-(digitsVal rest)) else none)
    else if c = '+' then (if pyIsDigit rest then some (digitsVal rest) else none)
    else if pyIsDigit (c :: rest) then some (digitsVal (c :: rest)) else none

/-- Model of Python's substring test `needle in hay` (`True` iff `needle`
occurs contiguously inside `hay`). -/
def containsSeq (needle : List Char) : List Char → Bool
  | [] => needle.isEmpty
  | c :: rest => startsWithSeq needle (c :: rest) || containsSeq needle rest
where
  /-- `needle` is an initial segment of the second argument. -/
  startsWithSeq : List Char → List Char → Bool
    | [], _ => true
    | _ :: _, [] => false
    | a :: as, b :: bs => a = b && startsWithSeq as bs

/-- Numeric value of a single digit character (`int(time_str[0])`). -/
def charDigitVal (c : Char) : ℤ := ((c.toNat - '0'.toNat : ℕ) : ℤ)

/-- The consecutive two-character slices `time_str[i:i+2]` for
`i = 1, 3, 5, ...` read by `parse_time_periods`; a trailing lone character
(no full two-character slice) is dropped, exactly as the guard
`if i + 1 < len(time_str)` does. -/
def pairsOf : List Char → List (Char × Char)
  | a :: b :: rest => (a, b) :: pairsOf rest
  | _ => []

/-- The integer value of a two-character period slice (`int(period_str)`). -/
def pairVal (pr : Char × Char) : ℤ :=
  10 * charDigitVal pr.1 + charDigitVal pr.2

/-- A two-character slice passes the loop's guards: both characters are
digits and the period value is in `[1, 10]`. -/
def validPeriodPair (pr : Char × Char) : Prop :=
  (pr.1.isDigit ∧ pr.2.isDigit) ∧ (1 ≤ pairVal pr ∧ pairVal pr ≤ 10)

instance (pr : Char × Char) : Decidable (validPeriodPair pr) := by
  unfold validPeriodPair; infer_instance

/-- The block `(period + 1) // 2` of a raw period slice. -/
def blockOf (pr : Char × Char) : ℤ := (pairVal pr + 1) / 2

/-- One iteration of the period loop of `parse_time_periods`
(src/classroom_schedule_processor.py lines 96-104): if the two-character
slice is all digits and its value is in [1,10], map it to the block
`(period + 1) // 2` and append it unless already collected. -/
def blockStep (acc : List ℤ) (pr : Char × Char) : List ℤ :=
  if pr.1.isDigit ∧ pr.2.isDigit then
    if 1 ≤ pairVal pr ∧ pairVal pr ≤ 10 then
      (if blockOf pr ∈ acc then acc else acc ++ [blockOf pr])
    else acc
  else acc

/-- Model of `parse_time_periods` (src/classroom_schedule_processor.py
lines 81-110). `none` models Python's `None` result; the `Option String`
argument models that Python `None` (or a non-string, rejected by
`isinstance`) may be passed. -/
def parse_time_periods (t : Option String) : Option (ℤ × List ℤ) :=
  match t with
  | none => none
  | some s =>
    match s.data with
    | [] => none
    | c :: rest =>
      if ¬ c.isDigit then none
      else
        let day := charDigitVal c
        if day < 1 ∨ day > 7 then none
        else if day = 6 ∨ day = 7 then none
        else
          let gs := (pairsOf rest).foldl blockStep []
          if gs = [] then none else some (day, List.insertionSort (· ≤ ·) gs)

example : parse_time_periods (some "307") = some (3, [4]) := by decide
example : parse_time_periods (some "30105") = some (3, [1, 3]) := by decide
example : parse_time_periods (some "6010203") = none := by decide
example : parse_time_periods (some "") = none := by decide
example : parse_time_periods (some "3") = none := by decide

/-! ## The current week-range parser, `parse_weeks`
(src/classroom_schedule_processor.py lines 112-190) -/

/-- `MAX_WEEKS = 16` (src/classroom_schedule_processor.py line 20). -/
def MAX_WEEKS : ℤ := 16

/-- The set produced by the dash-range branch of `parse_weeks`
(lines 150-161): bounds clipped by `start = max(1, start)` and
`end = min(MAX_WEEKS, end)`, then the inclusive range is enumerated and
filtered by the external odd/even modifier. -/
def partRange (s0 e0 : ℤ) (sd : Option String) : Finset ℤ :=
  let s := max 1 s0
  let e := min MAX_WEEKS e0
  if sd = some "单周" then (Finset.Icc s e).filter (fun w => w % 2 = 1)
  else if sd = some "双周" then (Finset.Icc s e).filter (fun w => w % 2 = 0)
  else Finset.Icc s e

/-- The set produced by the single-number branch of `parse_weeks`
(lines 164-178): the week is kept only if within `[1, MAX_WEEKS]` and
allowed by the external odd/even modifier. -/
def partSingle (w : ℤ) (sd : Option String) : Finset ℤ :=
  if 1 ≤ w ∧ w ≤ MAX_WEEKS then
    if sd = some "单周" then (if w % 2 = 1 then {w} else ∅)
    else if sd = some "双周" then (if w % 2 = 0 then {w} else ∅)
    else {w}
  else ∅

/-- The contribution of one comma-separated part in `parse_weeks`
(lines 146-178).  A part containing a dash is parsed as `start-end`
(a malformed part, or one with more or fewer than two dash-pieces, raises
`ValueError` which the source catches with `continue`, i.e. contributes
`∅`); otherwise it is a single number. -/
def partWeeks (part : List Char) (sd : Option String) : Finset ℤ :=
  if part.contains '-' then
    match pySplit '-' part with
    | [a, b] =>
      match pyInt a, pyInt b with
      | some s0, some e0 => partRange s0 e0 sd
      | _, _ => ∅
    | _ => ∅
  else
    match pyInt part with
    | some w => partSingle w sd
    | none => ∅

/-- The comma-split loop of `parse_weeks` (lines 143-178): split the range
expression on commas, strip each part, and union the part contributions. -/
def partsWeeks (wr : List Char) (sd : Option String) : Finset ℤ :=
  (pySplit ',' wr).foldl (fun acc part => acc ∪ partWeeks (pyStrip part) sd) ∅

/-- Model of `parse_weeks` (src/classroom_schedule_processor.py lines
112-190).  Arguments model the Python `week_range` and `single_double`
parameters as `None`-or-string (the float-input normalisation of lines
117-120 is outside the modelled input domain).  Control flow: empty range
and empty modifier give `∅`; empty range with a digit modifier returns
that literal week when in `[1, MAX_WEEKS]` (else `∅`); otherwise the comma
parts are processed, and the final fallback of lines 180-188 turns an
empty result into the digit modifier's literal week when in range. -/
def parse_weeks (week_range single_double : Option String) : Finset ℤ :=
  if ¬ truthy week_range ∧ ¬ truthy single_double then ∅
  else if ¬ truthy week_range ∧ truthy single_double then
    let sd := (single_double.getD "").data
    if pyIsDigit sd then
      (if 1 ≤ digitsVal sd ∧ digitsVal sd ≤ MAX_WEEKS then {digitsVal sd} else ∅)
    else ∅
  else
    let weeks :=
      if truthy week_range then partsWeeks (week_range.getD "").data single_double
      else ∅
    let sd := (single_double.getD "").data
    if weeks = ∅ ∧ truthy single_double ∧ pyIsDigit sd
        ∧ 1 ≤ digitsVal sd ∧ digitsVal sd ≤ MAX_WEEKS then
      insert (digitsVal sd) weeks
    else weeks

example : parse_weeks (some "1-8") (some "单周") = {1, 3, 5, 7} := by decide
example : parse_weeks (some "1-8") (some "双周") = {2, 4, 6, 8} := by decide
example : parse_weeks (some "1-8") none = {1, 2, 3, 4, 5, 6, 7, 8} := by decide
example : parse_weeks none (some "10") = {10} := by decide
example : parse_weeks none (some "20") = ∅ := by decide
example : parse_weeks (some "20-25") none = ∅ := by decide
example : parse_weeks (some "abc") (some "5") = {5} := by decide
example : parse_weeks (some "1-4, 9") (some "单周") = {1, 3, 9} := by decide

/-! ## The legacy week parser, `parse_week_numbers`
(src/old_version/main.py lines 10-48) -/

/-- The dash-range branch of `parse_week_numbers` (lines 33-40): the
inclusive range is enumerated with NO clipping, filtered odd first, then
even, else kept whole. -/
def pwnRange (pOdd pEven : Bool) (s e : ℤ) : Finset ℤ :=
  if pOdd then (Finset.Icc s e).filter (fun w => w % 2 = 1)
  else if pEven then (Finset.Icc s e).filter (fun w => w % 2 = 0)
  else Finset.Icc s e

/-- One comma-separated part of `parse_week_numbers` (lines 25-46).
`isOdd`/`isEven` are the whole-text flags; the part's flags OR in the
presence of an inline `单`/`双` character, the markers are removed, and the
part is parsed; a part whose numbers fail to parse raises an uncaught
`ValueError` (modelled by `none`). -/
def pwnPart (isOdd isEven : Bool) (part : List Char) : Option (Finset ℤ) :=
  let pOdd := isOdd || part.contains '单'
  let pEven := isEven || part.contains '双'
  let p2 := (part.filter (· ≠ '单')).filter (· ≠ '双')
  if p2.contains '-' then
    match pySplit '-' p2 with
    | [a, b] =>
      match pyInt a, pyInt b with
      | some s, some e => some (pwnRange pOdd pEven s e)
      | _, _ => none
    | _ => none
  else
    match pyInt p2 with
    | some w =>
      some (if (¬ pOdd ∧ ¬ pEven) ∨ (pOdd ∧ w % 2 = 1) ∨ (pEven ∧ w % 2 = 0)
            then {w} else ∅)
    | none => none

/-- Model of `parse_week_numbers` (src/old_version/main.py lines 10-48):
whole-text odd/even flags come from substring tests `'单周' in week_text` /
`'双周' in week_text`, every `周` character is removed, the text is split
on commas, and the part results are unioned.  `none` models an uncaught
`ValueError` from a malformed part. -/
def parse_week_numbers (text : String) : Option (Finset ℤ) :=
  let isOdd := containsSeq "单周".data text.data
  let isEven := containsSeq "双周".data text.data
  let t2 := text.data.filter (· ≠ '周')
  (pySplit ',' t2).foldlM (fun acc part => do
    let s ← pwnPart isOdd isEven part
    pure (acc ∪ s)) ∅

/-- Modelled from the spec: the inline-dialect semantics that claim C4
asserts, in the claim's own words — "an odd/even marker attached to an
individual comma-separated part overrides any outer odd/even modifier for
that part only, while parts without an inline marker follow the outer
modifier".  It differs from `parse_week_numbers` only in how the per-part
flags are combined: an inline marker replaces the outer flags instead of
being OR-ed with them. -/
def specInlineOverride (text : String) : Option (Finset ℤ) :=
  let isOdd := containsSeq "单周".data text.data
  let isEven := containsSeq "双周".data text.data
  let t2 := text.data.filter (· ≠ '周')
  (pySplit ',' t2).foldlM (fun acc part => do
    let inlO := part.contains '单'
    let inlE := part.contains '双'
    let pOdd := if inlO || inlE then inlO else isOdd
    let pEven := if inlO || inlE then inlE else isEven
    let s ← pwnPart' pOdd pEven part
    pure (acc ∪ s)) ∅
where
  /-- The part body with the flags supplied directly (no OR-combination). -/
  pwnPart' (pOdd pEven : Bool) (part : List Char) : Option (Finset ℤ) :=
    let p2 := (part.filter (· ≠ '单')).filter (· ≠ '双')
    if p2.contains '-' then
      match pySplit '-' p2 with
      | [a, b] =>
        match pyInt a, pyInt b with
        | some s, some e => some (pwnRange pOdd pEven s e)
        | _, _ => none
      | _ => none
    else
      match pyInt p2 with
      | some w =>
        some (if (¬ pOdd ∧ ¬ pEven) ∨ (pOdd ∧ w % 2 = 1) ∨ (pEven ∧ w % 2 = 0)
              then {w} else ∅)
      | none => none

example : parse_week_numbers "1-8单周" = some {1, 3, 5, 7} := by decide
example : parse_week_numbers "1-8双周" = some {2, 4, 6, 8} := by decide
example : parse_week_numbers "1-8周" = some {1, 2, 3, 4, 5, 6, 7, 8} := by decide
example : parse_week_numbers "1-4单,5-8" = some {1, 3, 5, 6, 7, 8} := by decide
example : parse_week_numbers "1-4双,5-8单周" = some {1, 3, 5, 7} := by decide
example : specInlineOverride "1-4双,5-8单周" = some {2, 4, 5, 7} := by decide
example : parse_week_numbers "20周" = some {20} := by decide

/-! ## The occupancy index
(src/classroom_schedule_processor.py, `load_schedule_data` lines 236-242
builds `used_classrooms`; `format_and_write_sheet` lines 301-305 queries
it with `used_classrooms.get(key, set())` and complements against
`all_classrooms`.) -/

/-- A normalized room identifier. -/
abbrev RoomId := String

/-- The composite key `(week, day, period)` of `used_classrooms`. -/
abbrev OccKey := ℤ × ℤ × ℤ

/-- The `used_classrooms` dictionary, read through
`used_classrooms.get(key, set())`: a total map with default `∅`. -/
abbrev OccIndex := OccKey → Finset RoomId

/-- The dictionary before any record is ingested. -/
def emptyIndex : OccIndex := fun _ => ∅

/-- One decoded schedule row as it reaches the ingestion loop: the weekday
and period blocks from `parse_time_periods`, the week set from
`parse_weeks`, and the extracted classroom tokens. -/
structure ScheduleRecord where
  weekday : ℤ
  periods : List ℤ
  weeks : Finset ℤ
  rooms : Finset RoomId
deriving DecidableEq

/-- `used_classrooms[key].update(processed_classrooms)` together with the
`if key not in used_classrooms: used_classrooms[key] = set()` lines:
union `rooms` into the set at `key`. -/
def updKey (idx : OccIndex) (key : OccKey) (rooms : Finset RoomId) : OccIndex :=
  fun k => if k = key then idx k ∪ rooms else idx k

/-- The body of `for week in weeks:` (lines 237-242): if the week is in
`[1, MAX_WEEKS]`, union the record's rooms into every key
`(week, day, period)` for its periods. -/
def ingestWeek (r : ScheduleRecord) (idx : OccIndex) (w : ℤ) : OccIndex :=
  if 1 ≤ w ∧ w ≤ MAX_WEEKS then
    r.periods.foldl (fun acc p => updKey acc (w, r.weekday, p) r.rooms) idx
  else idx

/-- Ingestion of one record (the loop of lines 236-242).  Python iterates
the `weeks` set in unspecified order; we fold over its sorted enumeration
and prove below that the result does not depend on the order. -/
def ingest (idx : OccIndex) (r : ScheduleRecord) : OccIndex :=
  (r.weeks.sort (· ≤ ·)).foldl (ingestWeek r) idx

/-- Folding a whole sequence of decoded records into the index, starting
from the empty dictionary. -/
def ingestList (rs : List ScheduleRecord) : OccIndex :=
  rs.foldl ingest emptyIndex

/-- `used_classrooms.get(key, set())` (line 302). -/
def occupiedAt (idx : OccIndex) (k : OccKey) : Finset RoomId := idx k

/-- `available_classrooms = all_classrooms - used` (line 304). -/
def freeAt (all_classrooms : Finset RoomId) (idx : OccIndex) (k : OccKey) :
    Finset RoomId :=
  all_classrooms \ occupiedAt idx k

/-- A record reaches key `k` in the ingestion loop exactly when `k`'s week
is one of the record's weeks and survives the `1 <= week <= MAX_WEEKS`
guard, `k`'s day is the record's weekday, and `k`'s period is one of the
record's period blocks. -/
def recMatches (r : ScheduleRecord) (k : OccKey) : Prop :=
  k.1 ∈ r.weeks ∧ 1 ≤ k.1 ∧ k.1 ≤ MAX_WEEKS ∧ k.2.1 = r.weekday ∧ k.2.2 ∈ r.periods

/-! ## The interval compactor
(src/old_version/main.py, `merge_classroom_results` lines 102-117) -/

/-- The interval-building loop of `merge_classroom_results` (lines
105-113): `start`/`end` track the current run; a week equal to `end + 1`
extends the run, otherwise the run is emitted and a new one starts; the
final run is emitted after the loop. -/
def compactRun (s e : ℤ) : List ℤ → List (ℤ × ℤ)
  | [] => [(s, e)]
  | w :: rest =>
    if w = e + 1 then compactRun s w rest else (s, e) :: compactRun w w rest

/-- The compactor on a set of weeks: `weeks_list = sorted(list(weeks))`
then the run loop seeded with `start = end = weeks_list[0]`.  On the empty
set `weeks_list[0]` raises `IndexError`, modelled by `none`. -/
def compact (S : Finset ℤ) : Option (List (ℤ × ℤ)) :=
  match S.sort (· ≤ ·) with
  | [] => none
  | h :: t => some (compactRun h h t)

/-- Rendering of one interval
(`f"{start}-{end}" if start != end else str(start)`). -/
def renderIv (p : ℤ × ℤ) : String :=
  if p.1 = p.2 then toString p.1 else toString p.1 ++ "-" ++ toString p.2

/-- Re-expansion of a list of inclusive intervals back into a week set
(the semantic inverse of the dash-range notation). -/
def expandList (l : List (ℤ × ℤ)) : Finset ℤ :=
  l.foldr (fun p acc => Finset.Icc p.1 p.2 ∪ acc) ∅

/-- Computation helper: a strictly sorted enumeration of a `Finset ℤ` is
its `sort`. -/
theorem sort_eq_of_sorted (S : Finset ℤ) (l : List ℤ)
    (hs : List.Sorted (· < ·) l) (ht : l.toFinset = S) :
    S.sort (· ≤ ·) = l := by
  have hnd : l.Nodup := hs.nodup
  have hperm : (S.sort (· ≤ ·)).Perm l := by
    apply List.perm_of_nodup_nodup_toFinset_eq (Finset.sort_nodup _ S) hnd
    rw [Finset.sort_toFinset, ht]
  exact List.eq_of_perm_of_sorted hperm (Finset.sort_sorted _ S)
    (hs.imp (fun h => le_of_lt h))

example : (compact {1, 2, 3, 5, 7, 8}).map (List.map renderIv)
    = some ["1-3", "5", "7-8"] := by
  have h : ({1, 2, 3, 5, 7, 8} : Finset ℤ).sort (· ≤ ·) = [1, 2, 3, 5, 7, 8] :=
    sort_eq_of_sorted _ _ (by decide) (by decide)
  rw [compact, h]
  decide
example : compact (∅ : Finset ℤ) = none := by
  rw [compact, Finset.sort_empty]

/-! ## The natural alphanumeric cell ordering
(src/classroom_schedule_processor.py line 307:
`sorted(..., key=lambda x: [int(t) if t.isdigit() else t.lower()
for t in re.split('([0-9]+)', x)])`) -/

/-- Model of `re.split('([0-9]+)', x)`: the alternating maximal runs of
non-digit and digit characters, digit runs kept (captured group), with an
empty piece wherever a digit run touches the start, the end, or another
digit run — e.g. "B10" ↦ ["B","10",""] and "" ↦ [""].  Built
right-to-left: a digit character joins the digit run that follows the
leading empty piece, or opens a new one; a non-digit character extends the
leading piece. -/
def reSplitDigits : List Char → List (List Char)
  | [] => [[]]
  | c :: cs =>
    let r := reSplitDigits cs
    if c.isDigit then
      match r with
      | [] :: d :: rest => [] :: (c :: d) :: rest
      | _ => [] :: [c] :: r
    else
      match r with
      | p :: ps => (c :: p) :: ps
      | [] => [[c]]

/-- One piece of the sort key: `int(t) if t.isdigit() else t.lower()` —
an integer for digit runs, a lowercased character-list (Python strings
compare lexicographically by code point, as `List Char` does) otherwise.
The `Lex` sum order compares strings with strings and integers with
integers; the cross-type case never arises between two keys because every
key alternates string pieces (even positions) and integer pieces (odd
positions). -/
def natPiece (piece : List Char) : Lex (List Char ⊕ ℤ) :=
  if pyIsDigit piece then toLex (Sum.inr (digitsVal piece))
  else toLex (Sum.inl (piece.map Char.toLower))

/-- The full sort key of one room name (the `key=lambda x: [...]` list). -/
def natKey (x : String) : List (Lex (List Char ⊕ ℤ)) :=
  (reSplitDigits x.data).map natPiece

/-- The key ordering used by `sorted`: Python compares key lists
lexicographically. -/
def natKeyLe (a b : String) : Prop := natKey a ≤ natKey b

instance : DecidableRel natKeyLe := fun a b =>
  inferInstanceAs (Decidable (natKey a ≤ natKey b))

/-- `sorted(list(classrooms_to_show), key=...)` (line 307): a stable sort
of the room names by their natural keys. -/
def cellSort (l : List RoomId) : List RoomId :=
  List.insertionSort natKeyLe l

example : cellSort ["B2", "B10", "A1"] = ["A1", "B2", "B10"] := by decide
example : natKey "B2" < natKey "B10" := by decide
example : cellSort ["b10", "B9", "a2"] = ["a2", "B9", "b10"] := by decide

/-! ## Theorems: the occupancy index (claims C1, C2) -/

instance (r : ScheduleRecord) (k : OccKey) : Decidable (recMatches r k) := by
  unfold recMatches; infer_instance

/-- The inner `for period in periods` loop only touches keys whose week is
`w` and day is `d`, unioning `rooms` there. -/
theorem foldl_updKey_apply (w d : ℤ) (rooms : Finset RoomId) :
    ∀ (ps : List ℤ) (acc : OccIndex) (kw kd kp : ℤ),
      (ps.foldl (fun a p => updKey a (w, d, p) rooms) acc) (kw, kd, kp)
        = if kw = w ∧ kd = d ∧ kp ∈ ps
          then acc (kw, kd, kp) ∪ rooms else acc (kw, kd, kp) := by
  intro ps
  induction ps with
  | nil => intro acc kw kd kp; simp
  | cons p ps ih =>
    intro acc kw kd kp
    rw [List.foldl_cons, ih]
    simp only [updKey, List.mem_cons, Prod.mk.injEq]
    by_cases h1 : kw = w <;> by_cases h2 : kd = d <;> by_cases h3 : kp = p <;>
      by_cases h4 : kp ∈ ps <;>
      simp [h1, h2, h3, h4, Finset.union_assoc, Finset.union_self]

/-- The `for week in weeks` loop only touches keys whose week is a member,
in `[1, MAX_WEEKS]`, with the record's weekday and one of its periods. -/
theorem foldl_ingestWeek_apply (r : ScheduleRecord) :
    ∀ (ws : List ℤ) (acc : OccIndex) (kw kd kp : ℤ),
      (ws.foldl (ingestWeek r) acc) (kw, kd, kp)
        = if kw ∈ ws ∧ 1 ≤ kw ∧ kw ≤ MAX_WEEKS ∧ kd = r.weekday ∧ kp ∈ r.periods
          then acc (kw, kd, kp) ∪ r.rooms else acc (kw, kd, kp) := by
  intro ws
  induction ws with
  | nil => intro acc kw kd kp; simp
  | cons w ws ih =>
    intro acc kw kd kp
    rw [List.foldl_cons, ih]
    have hw : ingestWeek r acc w (kw, kd, kp)
        = if kw = w ∧ 1 ≤ kw ∧ kw ≤ MAX_WEEKS ∧ kd = r.weekday ∧ kp ∈ r.periods
          then acc (kw, kd, kp) ∪ r.rooms else acc (kw, kd, kp) := by
      unfold ingestWeek
      by_cases hr : 1 ≤ w ∧ w ≤ MAX_WEEKS
      · rw [if_pos hr, foldl_updKey_apply]
        by_cases g1 : kw = w ∧ kd = r.weekday ∧ kp ∈ r.periods
        · obtain ⟨hkw, hkd, hkp⟩ := g1
          subst hkw
          rw [if_pos ⟨rfl, hkd, hkp⟩, if_pos ⟨rfl, hr.1, hr.2, hkd, hkp⟩]
        · rw [if_neg g1,
            if_neg (fun hc => g1 ⟨hc.1, hc.2.2.2.1, hc.2.2.2.2⟩)]
      · have hneg : ¬ (kw = w ∧ 1 ≤ kw ∧ kw ≤ MAX_WEEKS
            ∧ kd = r.weekday ∧ kp ∈ r.periods) := by
          rintro ⟨rfl, hb, hc2, -, -⟩
          exact hr ⟨hb, hc2⟩
        rw [if_neg hr, if_neg hneg]
    rw [hw]
    simp only [List.mem_cons]
    by_cases hP : 1 ≤ kw ∧ kw ≤ MAX_WEEKS ∧ kd = r.weekday ∧ kp ∈ r.periods
    · by_cases h1 : kw ∈ ws
      · by_cases h2 : kw = w
        · rw [if_pos ⟨h1, hP⟩, if_pos ⟨h2, hP⟩, if_pos ⟨Or.inl h2, hP⟩,
            Finset.union_assoc, Finset.union_self]
        · rw [if_pos ⟨h1, hP⟩, if_neg (fun hc => h2 hc.1),
            if_pos ⟨Or.inr h1, hP⟩]
      · by_cases h2 : kw = w
        · rw [if_neg (fun hc => h1 hc.1), if_pos ⟨h2, hP⟩,
            if_pos ⟨Or.inl h2, hP⟩]
        · rw [if_neg (fun hc => h1 hc.1), if_neg (fun hc => h2 hc.1),
            if_neg (fun hc => hc.1.elim h2 h1)]
    · rw [if_neg (fun hc => hP hc.2), if_neg (fun hc => hP hc.2),
        if_neg (fun hc => hP hc.2)]

/-- Ingesting one record updates exactly the matching keys by union. -/
theorem ingest_apply (idx : OccIndex) (r : ScheduleRecord) (k : OccKey) :
    ingest idx r k = if recMatches r k then idx k ∪ r.rooms else idx k := by
  obtain ⟨kw, kd, kp⟩ := k
  rw [ingest, foldl_ingestWeek_apply]
  simp [recMatches, Finset.mem_sort]

/-- Membership in the index built by folding a record list. -/
theorem mem_ingestFold (rs : List ScheduleRecord) :
    ∀ (idx : OccIndex) (k : OccKey) (x : RoomId),
      x ∈ (rs.foldl ingest idx) k
        ↔ x ∈ idx k ∨ ∃ r ∈ rs, recMatches r k ∧ x ∈ r.rooms := by
  induction rs with
  | nil => simp
  | cons r rs ih =>
    intro idx k x
    rw [List.foldl_cons, ih, ingest_apply]
    by_cases h : recMatches r k <;> simp [h] <;> tauto

/-- Claim C1: for any finite sequence of decoded schedule records ingested
into the occupancy index, the set of occupied rooms stored at a key
`k = (week, weekday, periodBlock)` (with `k`'s week in `[1, MAX_WEEKS]`,
the only weeks the ingestion loop stores) equals the union of the rooms of
exactly those records whose week set contains `k`'s week, whose weekday
equals `k`'s weekday, and whose period-block list contains `k`'s block;
the result does not depend on the order in which records are ingested;
ingesting the same record twice leaves the index unchanged; and querying a
key never populated returns the empty set. -/
theorem c1_occupancy_index (rs rs2 : List ScheduleRecord) (idx : OccIndex)
    (r : ScheduleRecord) (k : OccKey) (hperm : rs.Perm rs2)
    (hk1 : 1 ≤ k.1) (hk2 : k.1 ≤ MAX_WEEKS) :
    (∀ x : RoomId, x ∈ occupiedAt (ingestList rs) k
        ↔ ∃ r2 ∈ rs, k.1 ∈ r2.weeks ∧ k.2.1 = r2.weekday
            ∧ k.2.2 ∈ r2.periods ∧ x ∈ r2.rooms)
    ∧ ingestList rs = ingestList rs2
    ∧ ingest (ingest idx r) r = ingest idx r
    ∧ occupiedAt emptyIndex k = ∅ := by
  refine ⟨?_, ?_, ?_, rfl⟩
  · intro x
    rw [occupiedAt, ingestList, mem_ingestFold]
    simp only [emptyIndex, Finset.not_mem_empty, false_or, recMatches]
    constructor
    · rintro ⟨r2, hr2, ⟨hwk, _, _, hd, hp⟩, hx⟩
      exact ⟨r2, hr2, hwk, hd, hp, hx⟩
    · rintro ⟨r2, hr2, hwk, hd, hp, hx⟩
      exact ⟨r2, hr2, ⟨hwk, hk1, hk2, hd, hp⟩, hx⟩
  · funext k2
    apply Finset.ext
    intro x
    rw [ingestList, ingestList, mem_ingestFold, mem_ingestFold]
    constructor <;> rintro (h | ⟨r2, hr2, hm, hx⟩)
    · exact Or.inl h
    · exact Or.inr ⟨r2, hperm.mem_iff.mp hr2, hm, hx⟩
    · exact Or.inl h
    · exact Or.inr ⟨r2, hperm.mem_iff.mpr hr2, hm, hx⟩
  · funext k2
    rw [ingest_apply, ingest_apply]
    by_cases h : recMatches r k2 <;>
      simp [h, Finset.union_assoc, Finset.union_self]

/-- Witness for C1 at a concrete record list, record, and key. -/
theorem c1_occupancy_index_witness :
    (∀ x : RoomId,
        x ∈ occupiedAt
            (ingestList [⟨3, [2], {1, 3}, {"A101"}⟩]) ((3 : ℤ), (3 : ℤ), (2 : ℤ))
          ↔ ∃ r2 ∈ [(⟨3, [2], {1, 3}, {"A101"}⟩ : ScheduleRecord)],
              ((3 : ℤ), (3 : ℤ), (2 : ℤ)).1 ∈ r2.weeks
                ∧ ((3 : ℤ), (3 : ℤ), (2 : ℤ)).2.1 = r2.weekday
                ∧ ((3 : ℤ), (3 : ℤ), (2 : ℤ)).2.2 ∈ r2.periods ∧ x ∈ r2.rooms)
    ∧ ingestList [⟨3, [2], {1, 3}, {"A101"}⟩]
        = ingestList [⟨3, [2], {1, 3}, {"A101"}⟩]
    ∧ ingest (ingest emptyIndex ⟨3, [2], {1, 3}, {"A101"}⟩)
          ⟨3, [2], {1, 3}, {"A101"}⟩
        = ingest emptyIndex ⟨3, [2], {1, 3}, {"A101"}⟩
    ∧ occupiedAt emptyIndex ((3 : ℤ), (3 : ℤ), (2 : ℤ)) = ∅ :=
  c1_occupancy_index [⟨3, [2], {1, 3}, {"A101"}⟩] [⟨3, [2], {1, 3}, {"A101"}⟩]
    emptyIndex ⟨3, [2], {1, 3}, {"A101"}⟩ ((3 : ℤ), (3 : ℤ), (2 : ℤ))
    (List.Perm.refl _) (by decide) (by decide)

/-- Claim C2: for EVERY roster and every key, the free-room set is the
roster minus the occupied set, the free set and the occupied set are
disjoint, and the free set stays within the roster (so rooms occupied but
absent from the roster are excluded from the free set's universe yet
remain in the occupied set); whenever the occupied set is additionally
contained in the roster, free and occupied together give back exactly the
roster. -/
theorem c2_free_complement (roster : Finset RoomId) (idx : OccIndex)
    (k : OccKey) :
    freeAt roster idx k = roster \ occupiedAt idx k
    ∧ Disjoint (occupiedAt idx k) (freeAt roster idx k)
    ∧ freeAt roster idx k ⊆ roster
    ∧ (occupiedAt idx k ⊆ roster →
        freeAt roster idx k ∪ occupiedAt idx k = roster) := by
  refine ⟨rfl, ?_, ?_, ?_⟩
  · exact Finset.disjoint_sdiff
  · exact Finset.sdiff_subset
  · intro hsub
    exact Finset.sdiff_union_of_subset hsub

/-- Witness for C2 at a concrete roster, index and key, with the subset
hypothesis of the union conjunct discharged. -/
theorem c2_free_complement_witness :
    freeAt {"A101", "A102"} emptyIndex ((1 : ℤ), (1 : ℤ), (1 : ℤ))
        = {"A101", "A102"} \ occupiedAt emptyIndex ((1 : ℤ), (1 : ℤ), (1 : ℤ))
    ∧ Disjoint (occupiedAt emptyIndex ((1 : ℤ), (1 : ℤ), (1 : ℤ)))
        (freeAt {"A101", "A102"} emptyIndex ((1 : ℤ), (1 : ℤ), (1 : ℤ)))
    ∧ freeAt {"A101", "A102"} emptyIndex ((1 : ℤ), (1 : ℤ), (1 : ℤ))
        ⊆ {"A101", "A102"}
    ∧ freeAt {"A101", "A102"} emptyIndex ((1 : ℤ), (1 : ℤ), (1 : ℤ))
          ∪ occupiedAt emptyIndex ((1 : ℤ), (1 : ℤ), (1 : ℤ))
        = {"A101", "A102"} :=
  ⟨(c2_free_complement {"A101", "A102"} emptyIndex ((1 : ℤ), (1 : ℤ), (1 : ℤ))).1,
    (c2_free_complement {"A101", "A102"} emptyIndex ((1 : ℤ), (1 : ℤ), (1 : ℤ))).2.1,
    (c2_free_complement {"A101", "A102"} emptyIndex ((1 : ℤ), (1 : ℤ), (1 : ℤ))).2.2.1,
    (c2_free_complement {"A101", "A102"} emptyIndex ((1 : ℤ), (1 : ℤ), (1 : ℤ))).2.2.2
      (Finset.empty_subset _)⟩

/-! ## Theorems: week parsing (claims C4, C5, C8, C10) -/

/-- Membership in the clipped dash-range contribution forces the week into
`[1, MAX_WEEKS]`. -/
theorem mem_partRange (s0 e0 : ℤ) (sd : Option String) (w : ℤ)
    (hw : w ∈ partRange s0 e0 sd) : 1 ≤ w ∧ w ≤ MAX_WEEKS := by
  simp only [partRange] at hw
  have hb : w ∈ Finset.Icc (max 1 s0) (min MAX_WEEKS e0) →
      1 ≤ w ∧ w ≤ MAX_WEEKS := by
    intro hm
    have hm2 := Finset.mem_Icc.mp hm
    exact ⟨le_trans (le_max_left 1 s0) hm2.1,
      le_trans hm2.2 (min_le_left MAX_WEEKS e0)⟩
  split_ifs at hw
  · exact hb (Finset.mem_filter.mp hw).1
  · exact hb (Finset.mem_filter.mp hw).1
  · exact hb hw

/-- Membership in the single-number contribution forces the week into
`[1, MAX_WEEKS]`. -/
theorem mem_partSingle (v : ℤ) (sd : Option String) (w : ℤ)
    (hw : w ∈ partSingle v sd) : 1 ≤ w ∧ w ≤ MAX_WEEKS := by
  simp only [partSingle] at hw
  split_ifs at hw with h1 h2 h3 h4 h5 <;>
    first
    | (rw [Finset.mem_singleton] at hw; subst hw; exact h1)
    | exact absurd hw (Finset.not_mem_empty w)

/-- Membership in the one-part contribution forces the week into
`[1, MAX_WEEKS]`. -/
theorem mem_partWeeks (part : List Char) (sd : Option String) (w : ℤ)
    (hw : w ∈ partWeeks part sd) : 1 ≤ w ∧ w ≤ MAX_WEEKS := by
  unfold partWeeks at hw
  split at hw
  · split at hw
    · split at hw
      · exact mem_partRange _ _ _ _ hw
      · exact absurd hw (Finset.not_mem_empty w)
    · exact absurd hw (Finset.not_mem_empty w)
  · split at hw
    · exact mem_partSingle _ _ _ hw
    · exact absurd hw (Finset.not_mem_empty w)

/-- Membership in a fold of unions over a list. -/
theorem mem_foldl_union {α : Type} (f : α → Finset ℤ) :
    ∀ (l : List α) (acc : Finset ℤ) (w : ℤ),
      w ∈ l.foldl (fun a x => a ∪ f x) acc ↔ w ∈ acc ∨ ∃ x ∈ l, w ∈ f x := by
  intro l
  induction l with
  | nil => simp
  | cons x l ih =>
    intro acc w
    rw [List.foldl_cons, ih]
    simp only [Finset.mem_union, List.mem_cons]
    constructor
    · rintro ((h | h) | ⟨y, hy, hm⟩)
      · exact Or.inl h
      · exact Or.inr ⟨x, Or.inl rfl, h⟩
      · exact Or.inr ⟨y, Or.inr hy, hm⟩
    · rintro (h | ⟨y, (rfl | hy), hm⟩)
      · exact Or.inl (Or.inl h)
      · exact Or.inl (Or.inr hm)
      · exact Or.inr ⟨y, hy, hm⟩

/-- Membership in the comma-split loop of `parse_weeks`. -/
theorem mem_partsWeeks (wr : List Char) (sd : Option String) (w : ℤ) :
    w ∈ partsWeeks wr sd
      ↔ ∃ part ∈ pySplit ',' wr, w ∈ partWeeks (pyStrip part) sd := by
  unfold partsWeeks
  rw [mem_foldl_union]
  simp

/-- Claim C5 (as amended): every week returned by the current parser
`parse_weeks` lies in `[1, MAX_WEEKS]`; dash-range bounds are clipped into
`[1, MAX_WEEKS]` before enumeration, so a range lying entirely outside
`[1, MAX_WEEKS]` contributes no weeks and is not an error. -/
theorem c5_weeks_within_bounds (wr sd : Option String) (w : ℤ)
    (hw : w ∈ parse_weeks wr sd) :
    (1 ≤ w ∧ w ≤ MAX_WEEKS)
    ∧ (∀ (s0 e0 : ℤ) (sd2 : Option String),
        MAX_WEEKS < s0 ∨ e0 < 1 → partRange s0 e0 sd2 = ∅)
    ∧ parse_weeks (some "20-25") none = ∅ := by
  refine ⟨?_, ?_, by decide⟩
  · have hweeks : ∀ v : ℤ, v ∈ partsWeeks (wr.getD "").data sd →
        1 ≤ v ∧ v ≤ MAX_WEEKS := by
      intro v hv
      obtain ⟨part, -, hp⟩ := (mem_partsWeeks _ _ _).mp hv
      exact mem_partWeeks _ _ _ hp
    simp only [parse_weeks] at hw
    split_ifs at hw <;>
      first
      | exact absurd hw (Finset.not_mem_empty w)
      | (rw [Finset.mem_singleton] at hw
         subst hw
         assumption)
      | exact hweeks w hw
      | (rcases Finset.mem_insert.mp hw with rfl | hw2
         · tauto
         · first
           | exact hweeks w hw2
           | exact absurd hw2 (Finset.not_mem_empty w))
  · intro s0 e0 sd2 h
    have hlt : min MAX_WEEKS e0 < max 1 s0 := by
      rcases h with h | h
      · exact lt_of_le_of_lt (min_le_left _ _) (lt_of_lt_of_le h (le_max_right 1 s0))
      · exact lt_of_lt_of_le (lt_of_le_of_lt (min_le_right _ _) h) (le_max_left 1 s0)
    have hicc := Finset.Icc_eq_empty (not_le.mpr hlt)
    simp only [partRange]
    split_ifs <;> simp [hicc]

/-- Witness for C5 at a concrete parse. -/
theorem c5_weeks_within_bounds_witness :
    (3 : ℤ) ∈ parse_weeks (some "1-8") (some "单周")
    ∧ ((1 ≤ (3 : ℤ) ∧ (3 : ℤ) ≤ MAX_WEEKS)
        ∧ (∀ (s0 e0 : ℤ) (sd2 : Option String),
            MAX_WEEKS < s0 ∨ e0 < 1 → partRange s0 e0 sd2 = ∅)
        ∧ parse_weeks (some "20-25") none = ∅) :=
  ⟨by decide, c5_weeks_within_bounds (some "1-8") (some "单周") 3 (by decide)⟩

/-- Counterexample to claim C5 as stated: the legacy week parser
`parse_week_numbers` (src/old_version/main.py lines 33-46, one of the
claim's cited sources) does not clip; `"20"` parses to the week set
`{20}`, which exceeds `MAX_WEEKS = 16`. -/
theorem c5_cex_legacy_parser_unclipped :
    parse_week_numbers "20" = some {20} ∧ ¬ ((20 : ℤ) ≤ MAX_WEEKS) :=
  ⟨by decide, by decide⟩

/-- Claim C10: for a non-empty week-range expression whose processing
yields no weeks, a digit modifier whose value lies in `[1, MAX_WEEKS]`
makes `parse_weeks` fall back to the one-element set of that value. -/
theorem c10_numeric_modifier_fallback (wr s : String)
    (hwr : wr.data ≠ []) (hparts : partsWeeks wr.data (some s) = ∅)
    (hdig : pyIsDigit s.data = true)
    (h1 : 1 ≤ digitsVal s.data) (h16 : digitsVal s.data ≤ MAX_WEEKS) :
    parse_weeks (some wr) (some s) = {digitsVal s.data} := by
  have htr : truthy (some wr) = true := by
    simp [truthy, hwr]
  have hne : s.data ≠ [] := by
    intro h
    rw [pyIsDigit, h] at hdig
    simp at hdig
  have hts : truthy (some s) = true := by
    simp [truthy, hne]
  simp [parse_weeks, htr, hts, hparts, hdig, h1, h16]

/-- Witness for C10: range `"abc"` yields no weeks, modifier `"5"`. -/
theorem c10_numeric_modifier_fallback_witness :
    parse_weeks (some "abc") (some "5") = {(5 : ℤ)} :=
  c10_numeric_modifier_fallback "abc" "5" (by decide) (by decide) (by decide)
    (by decide) (by decide)

/-- Claim C8 (as amended): with an empty week-range expression, an empty
modifier gives the empty set; a digit modifier gives the one-element set
of its value when that value lies in `[1, MAX_WEEKS]` and the empty set
otherwise (the out-of-range value is dropped, not clamped); a non-numeric
modifier gives the empty set. -/
theorem c8_empty_range (wr : Option String) (s : String)
    (hwr : truthy wr = false) :
    parse_weeks wr none = ∅
    ∧ parse_weeks wr (some "") = ∅
    ∧ (pyIsDigit s.data = true → 1 ≤ digitsVal s.data →
        digitsVal s.data ≤ MAX_WEEKS →
        parse_weeks wr (some s) = {digitsVal s.data})
    ∧ (pyIsDigit s.data = true →
        (digitsVal s.data < 1 ∨ MAX_WEEKS < digitsVal s.data) →
        parse_weeks wr (some s) = ∅)
    ∧ (s.data ≠ [] → pyIsDigit s.data = false →
        parse_weeks wr (some s) = ∅) := by
  have h0 : truthy none = false := rfl
  have he : truthy (some "") = false := rfl
  refine ⟨?_, ?_, ?_, ?_, ?_⟩
  · simp [parse_weeks, hwr, h0]
  · simp [parse_weeks, hwr, he]
  · intro hdig hlo hhi
    have hne : s.data ≠ [] := by
      intro h
      rw [pyIsDigit, h] at hdig
      simp at hdig
    have hts : truthy (some s) = true := by simp [truthy, hne]
    simp only [parse_weeks, hwr, hts, Option.getD_some]
    rw [if_neg (by simp), if_pos (by simp), if_pos hdig,
      if_pos ⟨hlo, hhi⟩]
  · intro hdig hout
    have hne : s.data ≠ [] := by
      intro h
      rw [pyIsDigit, h] at hdig
      simp at hdig
    have hts : truthy (some s) = true := by simp [truthy, hne]
    have hnrange : ¬ (1 ≤ digitsVal s.data ∧ digitsVal s.data ≤ MAX_WEEKS) := by
      rintro ⟨ha, hb⟩
      rcases hout with h | h
      · exact absurd ha (not_le.mpr h)
      · exact absurd hb (not_le.mpr h)
    simp only [parse_weeks, hwr, hts, Option.getD_some]
    rw [if_neg (by simp), if_pos (by simp), if_pos hdig, if_neg hnrange]
  · intro hne hdig
    have hts : truthy (some s) = true := by simp [truthy, hne]
    simp only [parse_weeks, hwr, hts, Option.getD_some]
    rw [if_neg (by simp), if_pos (by simp), if_neg (by simp [hdig])]

/-- Witness for C8 at the empty range and digit modifier `"5"`. -/
theorem c8_empty_range_witness :
    parse_weeks none none = ∅
    ∧ parse_weeks none (some "") = ∅
    ∧ (pyIsDigit "5".data = true → 1 ≤ digitsVal "5".data →
        digitsVal "5".data ≤ MAX_WEEKS →
        parse_weeks none (some "5") = {digitsVal "5".data})
    ∧ (pyIsDigit "5".data = true →
        (digitsVal "5".data < 1 ∨ MAX_WEEKS < digitsVal "5".data) →
        parse_weeks none (some "5") = ∅)
    ∧ ("5".data ≠ [] → pyIsDigit "5".data = false →
        parse_weeks none (some "5") = ∅) :=
  c8_empty_range none "5" rfl

/-- Counterexample to claim C8 as stated: with an empty range and the
numeric modifier `"20"` (out of range), `parse_weeks` returns the empty
set — not a one-element set containing the clipped value 16, nor one
containing 20. -/
theorem c8_cex_out_of_range_modifier_dropped :
    parse_weeks none (some "20") = ∅
    ∧ (∅ : Finset ℤ) ≠ {(16 : ℤ)}
    ∧ (∅ : Finset ℤ) ≠ {(20 : ℤ)} :=
  ⟨by decide, by decide, by decide⟩

/-- Claim C4 (as amended): in the external-modifier dialect, the modifier
applies uniformly — `"1-8"` parses to `{1,3,5,7}` under the odd modifier,
`{2,4,6,8}` under the even modifier, and `{1,...,8}` with no modifier.
In the legacy inline dialect, an inline marker does NOT override the outer
modifier: the per-part flags are the disjunction of the whole-text flags
and the part's inline markers, with the odd flag taking precedence on
dash-range parts, as the membership characterization of `pwnRange` states;
when no outer marker conflicts, a per-part inline marker does filter that
part alone. -/
theorem c4_odd_even_filtering (pOdd pEven : Bool) (s e w : ℤ) :
    parse_weeks (some "1-8") (some "单周") = {1, 3, 5, 7}
    ∧ parse_weeks (some "1-8") (some "双周") = {2, 4, 6, 8}
    ∧ parse_weeks (some "1-8") none = {1, 2, 3, 4, 5, 6, 7, 8}
    ∧ (w ∈ pwnRange pOdd pEven s e
        ↔ s ≤ w ∧ w ≤ e
          ∧ (if pOdd then w % 2 = 1 else if pEven then w % 2 = 0 else True))
    ∧ parse_week_numbers "1-4单,5-8" = some {1, 3, 5, 6, 7, 8}
    ∧ parse_week_numbers "1-4双,5-8单周" = some {1, 3, 5, 7} := by
  refine ⟨by decide, by decide, by decide, ?_, by decide, by decide⟩
  cases pOdd <;> cases pEven <;>
    simp [pwnRange, Finset.mem_filter, Finset.mem_Icc, and_assoc]

/-- Counterexample to claim C4 as stated: on `"1-4双,5-8单周"` the legacy
parser filters the part `1-4双` by the outer odd marker (yielding
`{1,3}`), whereas the claimed override semantics would filter it by its
inline even marker (yielding `{2,4}`); the code and the claim's semantics
disagree. -/
theorem c4_cex_inline_marker_not_overriding :
    parse_week_numbers "1-4双,5-8单周" ≠ specInlineOverride "1-4双,5-8单周" := by
  decide

/-! ## Theorems: the time-code parser (claims C6, C7) -/

/-- Membership in one step of the period loop. -/
theorem mem_blockStep (acc : List ℤ) (pr : Char × Char) (g : ℤ) :
    g ∈ blockStep acc pr
      ↔ g ∈ acc ∨ (validPeriodPair pr ∧ g = blockOf pr) := by
  unfold blockStep
  split_ifs with hd hr hm
  · constructor
    · exact Or.inl
    · rintro (h | ⟨-, rfl⟩)
      · exact h
      · exact hm
  · rw [List.mem_append, List.mem_singleton]
    constructor
    · rintro (h | rfl)
      · exact Or.inl h
      · exact Or.inr ⟨⟨hd, hr⟩, rfl⟩
    · rintro (h | ⟨-, rfl⟩)
      · exact Or.inl h
      · exact Or.inr rfl
  · constructor
    · exact Or.inl
    · rintro (h | ⟨⟨-, hv⟩, -⟩)
      · exact h
      · exact absurd hv hr
  · constructor
    · exact Or.inl
    · rintro (h | ⟨⟨hv, -⟩, -⟩)
      · exact h
      · exact absurd hv hd

/-- Membership in the whole period loop. -/
theorem mem_foldl_blockStep :
    ∀ (ps : List (Char × Char)) (acc : List ℤ) (g : ℤ),
      g ∈ ps.foldl blockStep acc
        ↔ g ∈ acc ∨ ∃ pr ∈ ps, validPeriodPair pr ∧ g = blockOf pr := by
  intro ps
  induction ps with
  | nil => simp
  | cons pr ps ih =>
    intro acc g
    rw [List.foldl_cons, ih, mem_blockStep]
    simp only [List.mem_cons]
    constructor
    · rintro ((h | h) | ⟨q, hq, hv⟩)
      · exact Or.inl h
      · exact Or.inr ⟨pr, Or.inl rfl, h⟩
      · exact Or.inr ⟨q, Or.inr hq, hv⟩
    · rintro (h | ⟨q, (rfl | hq), hv⟩)
      · exact Or.inl (Or.inl h)
      · exact Or.inl (Or.inr hv)
      · exact Or.inr ⟨q, hq, hv⟩

/-- The period loop returns an empty block list iff it started empty and
no slice passed the guards. -/
theorem foldl_blockStep_eq_nil (ps : List (Char × Char)) (acc : List ℤ) :
    ps.foldl blockStep acc = []
      ↔ acc = [] ∧ ∀ pr ∈ ps, ¬ validPeriodPair pr := by
  rw [List.eq_nil_iff_forall_not_mem]
  constructor
  · intro h
    refine ⟨List.eq_nil_iff_forall_not_mem.mpr fun g hg => ?_, fun pr hpr hv => ?_⟩
    · exact h g ((mem_foldl_blockStep ps acc g).mpr (Or.inl hg))
    · exact h (blockOf pr)
        ((mem_foldl_blockStep ps acc _).mpr (Or.inr ⟨pr, hpr, hv, rfl⟩))
  · rintro ⟨hacc, hno⟩ g hg
    rcases (mem_foldl_blockStep ps acc g).mp hg with h | ⟨pr, hpr, hv, -⟩
    · rw [hacc] at h
      exact absurd h (List.not_mem_nil g)
    · exact hno pr hpr hv

/-- The period loop never introduces a duplicate block. -/
theorem nodup_foldl_blockStep :
    ∀ (ps : List (Char × Char)) (acc : List ℤ), acc.Nodup →
      (ps.foldl blockStep acc).Nodup := by
  intro ps
  induction ps with
  | nil => intro acc h; exact h
  | cons pr ps ih =>
    intro acc h
    rw [List.foldl_cons]
    apply ih
    unfold blockStep
    split_ifs with hd hr hm
    · exact h
    · simp [List.nodup_append, h, hm]
    · exact h
    · exact h

/-- Claim C6: the time-code parser returns "no time reference" on a
missing/non-string input, on the empty string, on a string whose first
character is not a digit, and on any weekend token (leading digit 6 or 7)
regardless of what follows; and for every leading digit 1 through 5 with
at least one valid period code it returns a structured time reference. -/
theorem c6_time_parser_domain (c d : Char) (r0 r6 r7 rd : List Char)
    (hc : ¬ c.isDigit) (hd : d.isDigit = true)
    (hd1 : 1 ≤ charDigitVal d) (hd5 : charDigitVal d ≤ 5)
    (hvp : ∃ pr ∈ pairsOf rd, validPeriodPair pr) :
    parse_time_periods none = none
    ∧ parse_time_periods (some "") = none
    ∧ parse_time_periods (some ⟨c :: r0⟩) = none
    ∧ parse_time_periods (some ⟨'6' :: r6⟩) = none
    ∧ parse_time_periods (some ⟨'7' :: r7⟩) = none
    ∧ (parse_time_periods (some ⟨d :: rd⟩)).isSome = true := by
  refine ⟨rfl, rfl, ?_, ?_, ?_, ?_⟩
  · simp [parse_time_periods, hc]
  · have h6 : charDigitVal '6' = 6 := by decide
    simp [parse_time_periods, h6]
  · have h7 : charDigitVal '7' = 7 := by decide
    simp [parse_time_periods, h7]
  · have hday1 : ¬ (charDigitVal d < 1 ∨ charDigitVal d > 7) := by omega
    have hday2 : ¬ (charDigitVal d = 6 ∨ charDigitVal d = 7) := by omega
    have hgs : (pairsOf rd).foldl blockStep [] ≠ [] := by
      intro hnil
      obtain ⟨pr, hpr, hv⟩ := hvp
      exact ((foldl_blockStep_eq_nil _ _).mp hnil).2 pr hpr hv
    simp [parse_time_periods, hd, hday1, hday2, hgs]

/-- Witness for C6 at concrete inputs (non-digit `x`, weekday tokens, and
the teaching-day token `307`). -/
theorem c6_time_parser_domain_witness :
    parse_time_periods none = none
    ∧ parse_time_periods (some "") = none
    ∧ parse_time_periods (some ⟨'x' :: []⟩) = none
    ∧ parse_time_periods (some ⟨'6' :: ['0', '1']⟩) = none
    ∧ parse_time_periods (some ⟨'7' :: []⟩) = none
    ∧ (parse_time_periods (some ⟨'3' :: ['0', '7']⟩)).isSome = true :=
  c6_time_parser_domain 'x' '3' [] ['0', '1'] [] ['0', '7']
    (by decide) (by decide) (by decide) (by decide)
    ⟨('0', '7'), by decide, by decide⟩

/-- The two-character slices of an even-length tail are unaffected by one
trailing extra character (the trailing lone digit is ignored). -/
theorem pairsOf_append_single :
    ∀ (cs : List Char) (x : Char), cs.length % 2 = 0 →
      pairsOf (cs ++ [x]) = pairsOf cs
  | [], _, _ => rfl
  | [a], _, h => by simp at h
  | a :: b :: t, x, h => by
    have ht : t.length % 2 = 0 := by
      simp only [List.length_cons] at h
      omega
    show (a, b) :: pairsOf (t ++ [x]) = (a, b) :: pairsOf t
    rw [pairsOf_append_single t x ht]

/-- Claim C7: the time-code parser reads consecutive two-character period
codes after the weekday digit, ignoring a trailing lone character when no
full two-character slice remains; every successful parse returns exactly
the blocks `(period + 1) div 2` of the valid period codes (codes outside
`[1,10]` or with non-digit characters are skipped), deduplicated and
sorted ascending; when no valid period code yields any block the parser
returns "no time reference"; and `"307"` parses to weekday 3 with block
list `[4]`. -/
theorem c7_period_blocks (cs : List Char) (x d d2 d3 : Char)
    (cs2 cs3 : List Char) (day : ℤ) (L : List ℤ) (h2 : cs.length % 2 = 0)
    (hp : parse_time_periods (some ⟨d2 :: cs2⟩) = some (day, L))
    (hnv : ∀ pr ∈ pairsOf cs3, ¬ validPeriodPair pr) :
    parse_time_periods (some ⟨d :: (cs ++ [x])⟩)
        = parse_time_periods (some ⟨d :: cs⟩)
    ∧ (∀ g : ℤ, g ∈ L
        ↔ ∃ pr ∈ pairsOf cs2, validPeriodPair pr ∧ g = blockOf pr)
    ∧ L.Sorted (· ≤ ·) ∧ L.Nodup
    ∧ parse_time_periods (some ⟨d3 :: cs3⟩) = none
    ∧ parse_time_periods (some "307") = some (3, [4]) := by
  have hinv : day = charDigitVal d2
      ∧ L = List.insertionSort (· ≤ ·) ((pairsOf cs2).foldl blockStep []) := by
    simp only [parse_time_periods] at hp
    split_ifs at hp <;>
      first
      | exact Option.noConfusion hp
      | exact ⟨(Prod.ext_iff.mp (Option.some.inj hp)).1.symm,
          (Prod.ext_iff.mp (Option.some.inj hp)).2.symm⟩
  obtain ⟨-, hL⟩ := hinv
  have hperm := List.perm_insertionSort (· ≤ ·) ((pairsOf cs2).foldl blockStep [])
  refine ⟨?_, ?_, ?_, ?_, ?_, by decide⟩
  · show parse_time_periods (some ⟨d :: (cs ++ [x])⟩)
        = parse_time_periods (some ⟨d :: cs⟩)
    simp only [parse_time_periods, pairsOf_append_single cs x h2]
  · intro g
    rw [hL, hperm.mem_iff, mem_foldl_blockStep]
    simp
  · rw [hL]
    exact List.sorted_insertionSort (· ≤ ·) _
  · rw [hL, hperm.nodup_iff]
    exact nodup_foldl_blockStep _ [] List.nodup_nil
  · have hgs : (pairsOf cs3).foldl blockStep [] = [] :=
      (foldl_blockStep_eq_nil _ _).mpr ⟨rfl, hnv⟩
    simp only [parse_time_periods, hgs]
    split_ifs <;> rfl

/-- Witness for C7 at the token `"307"` (tail `"07"`), a trailing digit
appended to `"01"`, and the blockless token `"199"` (period code 99 is out
of range, so no block is produced). -/
theorem c7_period_blocks_witness :
    parse_time_periods (some ⟨'3' :: (['0', '1'] ++ ['9'])⟩)
        = parse_time_periods (some ⟨'3' :: ['0', '1']⟩)
    ∧ (∀ g : ℤ, g ∈ [(4 : ℤ)]
        ↔ ∃ pr ∈ pairsOf ['0', '7'], validPeriodPair pr ∧ g = blockOf pr)
    ∧ ([(4 : ℤ)]).Sorted (· ≤ ·) ∧ ([(4 : ℤ)]).Nodup
    ∧ parse_time_periods (some ⟨'1' :: ['9', '9']⟩) = none
    ∧ parse_time_periods (some "307") = some (3, [4]) :=
  c7_period_blocks ['0', '1'] '9' '3' '3' '1' ['0', '7'] ['9', '9'] 3 [4]
    (by decide) (by decide) (by decide)

/-! ## Theorems: the interval compactor (claim C3) -/

/-- Re-expanding the runs built by the compactor loop recovers the
interval `[s, e]` together with the remaining (strictly ascending)
weeks. -/
theorem compactRun_expand :
    ∀ (t : List ℤ) (s e : ℤ), List.Sorted (· < ·) (e :: t) → s ≤ e →
      expandList (compactRun s e t) = Finset.Icc s e ∪ t.toFinset := by
  intro t
  induction t with
  | nil =>
    intro s e _ _
    simp [expandList, compactRun]
  | cons w rest ih =>
    intro s e hsort hse
    have hew : e < w := (List.sorted_cons.mp hsort).1 w (List.mem_cons_self _ _)
    have hrest : List.Sorted (· < ·) (w :: rest) := (List.sorted_cons.mp hsort).2
    unfold compactRun
    by_cases hw : w = e + 1
    · rw [if_pos hw, ih s w hrest (by omega)]
      subst hw
      ext x
      simp only [Finset.mem_union, Finset.mem_Icc, List.toFinset_cons,
        Finset.mem_insert, List.mem_toFinset]
      constructor
      · rintro (⟨hx1, hx2⟩ | hx)
        · by_cases hxe : x ≤ e
          · exact Or.inl ⟨hx1, hxe⟩
          · exact Or.inr (Or.inl (by omega))
        · exact Or.inr (Or.inr hx)
      · rintro (⟨hx1, hx2⟩ | rfl | hx)
        · exact Or.inl ⟨hx1, by omega⟩
        · exact Or.inl ⟨by omega, le_refl _⟩
        · exact Or.inr hx
    · rw [if_neg hw]
      show Finset.Icc s e ∪ expandList (compactRun w w rest)
          = Finset.Icc s e ∪ (w :: rest).toFinset
      rw [ih w w hrest (le_refl w), Finset.Icc_self, List.toFinset_cons,
        Finset.insert_eq]

/-- Structure of the compactor output: every run is a genuine interval
(`start ≤ end`), adjacent runs are separated by a gap of at least one
missing week (so no two adjacent runs are mergeable), and the first run
starts at `s`. -/
theorem compactRun_shape :
    ∀ (t : List ℤ) (s e : ℤ), List.Sorted (· < ·) (e :: t) → s ≤ e →
      (∀ p ∈ compactRun s e t, p.1 ≤ p.2)
      ∧ List.Chain' (fun p q : ℤ × ℤ => p.1 ≤ p.2 ∧ p.2 + 1 < q.1)
          (compactRun s e t)
      ∧ (compactRun s e t).head?.map Prod.fst = some s := by
  intro t
  induction t with
  | nil =>
    intro s e _ hse
    refine ⟨?_, List.chain'_singleton _, rfl⟩
    intro p hp
    rw [show compactRun s e [] = [(s, e)] from rfl, List.mem_singleton] at hp
    subst hp
    exact hse
  | cons w rest ih =>
    intro s e hsort hse
    have hew : e < w := (List.sorted_cons.mp hsort).1 w (List.mem_cons_self _ _)
    have hrest : List.Sorted (· < ·) (w :: rest) := (List.sorted_cons.mp hsort).2
    unfold compactRun
    by_cases hw : w = e + 1
    · rw [if_pos hw]
      exact ih s w hrest (by omega)
    · rw [if_neg hw]
      obtain ⟨hiv, hch, hhd⟩ := ih w w hrest (le_refl w)
      refine ⟨?_, ?_, rfl⟩
      · intro p hp
        rcases List.mem_cons.mp hp with rfl | hp2
        · exact hse
        · exact hiv p hp2
      · rw [List.chain'_cons']
        refine ⟨?_, hch⟩
        intro q hq
        have hq1 : q.1 = w := by
          cases hhead : (compactRun w w rest).head? with
          | none => rw [hhead] at hq; exact absurd hq (Option.not_mem_none q)
          | some q2 =>
            rw [hhead] at hq hhd
            simp only [Option.map_some', Option.some.injEq] at hhd
            rw [Option.mem_def, Option.some.injEq] at hq
            rw [← hq]
            exact hhd
        exact ⟨hse, by omega⟩

/-- Claim C3 (as amended): for every NONEMPTY finite set of positive
integers, the compactor produces a sequence of maximal runs — every run a
genuine interval, adjacent runs non-mergeable (gap of at least one missing
value), starts strictly ascending — whose re-expansion reconstructs
exactly the input set; and `{1,2,3,5,7,8}` renders to
`["1-3","5","7-8"]` (a run with equal endpoints renders as the bare
singleton). -/
theorem c3_compact_roundtrip (S : Finset ℤ) (hne : S.Nonempty)
    (hpos : ∀ x ∈ S, 0 < x) :
    (∃ L, compact S = some L
      ∧ expandList L = S
      ∧ (∀ p ∈ L, p.1 ≤ p.2)
      ∧ List.Chain' (fun p q : ℤ × ℤ => p.2 + 1 < q.1) L
      ∧ List.Chain' (fun p q : ℤ × ℤ => p.1 < q.1) L)
    ∧ (compact {1, 2, 3, 5, 7, 8}).map (List.map renderIv)
        = some ["1-3", "5", "7-8"] := by
  constructor
  · have hsorted : List.Sorted (· < ·) (S.sort (· ≤ ·)) :=
      (Finset.sort_sorted _ S).lt_of_le (Finset.sort_nodup _ S)
    cases hl : S.sort (· ≤ ·) with
    | nil =>
      exfalso
      obtain ⟨x, hx⟩ := hne
      have := Finset.mem_sort (α := ℤ) (· ≤ ·) |>.mpr hx
      rw [hl] at this
      exact absurd this (List.not_mem_nil x)
    | cons h tl =>
      rw [hl] at hsorted
      refine ⟨compactRun h h tl, ?_, ?_, ?_, ?_, ?_⟩
      · rw [compact, hl]
      · rw [compactRun_expand tl h h hsorted (le_refl h), Finset.Icc_self]
        have : ({h} : Finset ℤ) ∪ tl.toFinset = (h :: tl).toFinset := by
          rw [List.toFinset_cons, Finset.insert_eq]
        rw [this, ← hl, Finset.sort_toFinset]
      · exact (compactRun_shape tl h h hsorted (le_refl h)).1
      · exact ((compactRun_shape tl h h hsorted (le_refl h)).2.1).imp
          (fun a b hab => hab.2)
      · exact ((compactRun_shape tl h h hsorted (le_refl h)).2.1).imp
          (fun a b hab => by obtain ⟨h1, h2⟩ := hab; omega)
  · have h : ({1, 2, 3, 5, 7, 8} : Finset ℤ).sort (· ≤ ·) = [1, 2, 3, 5, 7, 8] :=
      sort_eq_of_sorted _ _ (by decide) (by decide)
    rw [compact, h]
    decide

/-- Witness for C3 at the concrete set `{1,2,3,5,7,8}`. -/
theorem c3_compact_roundtrip_witness :
    (∃ L, compact ({1, 2, 3, 5, 7, 8} : Finset ℤ) = some L
      ∧ expandList L = ({1, 2, 3, 5, 7, 8} : Finset ℤ)
      ∧ (∀ p ∈ L, p.1 ≤ p.2)
      ∧ List.Chain' (fun p q : ℤ × ℤ => p.2 + 1 < q.1) L
      ∧ List.Chain' (fun p q : ℤ × ℤ => p.1 < q.1) L)
    ∧ (compact {1, 2, 3, 5, 7, 8}).map (List.map renderIv)
        = some ["1-3", "5", "7-8"] :=
  c3_compact_roundtrip {1, 2, 3, 5, 7, 8} ⟨1, by decide⟩ (by decide)

/-- Counterexample to claim C3 as stated: on the empty set (a finite set
of positive integers) the compactor raises `IndexError` at
`weeks_list[0]` instead of producing a sequence — `compact ∅` yields no
output at all. -/
theorem c3_cex_empty_set_crashes : compact (∅ : Finset ℤ) = none := by
  rw [compact, Finset.sort_empty]

/-! ## Theorems: the natural alphanumeric cell ordering (claim C9) -/

instance : IsTotal RoomId natKeyLe :=
  ⟨fun a b => le_total (natKey a) (natKey b)⟩

instance : IsTrans RoomId natKeyLe :=
  ⟨fun _ _ _ hab hbc => le_trans hab hbc⟩

/-- Claim C9: the room list of each report grid cell is sorted by the
natural alphanumeric key — the output of the cell sort is sorted under the
key order and is a permutation of its input; numeric runs compare by
integer value, so `"B2"` sorts before `"B10"`, and
`["B2","B10","A1"]` sorts to `["A1","B2","B10"]`. -/
theorem c9_natural_sort (l : List RoomId) :
    (cellSort l).Sorted natKeyLe
    ∧ (cellSort l).Perm l
    ∧ natKey "B2" < natKey "B10"
    ∧ cellSort ["B2", "B10", "A1"] = ["A1", "B2", "B10"] :=
  ⟨List.sorted_insertionSort natKeyLe l, List.perm_insertionSort natKeyLe l,
    by decide, by decide⟩

end CSQ
